import Mathlib

/-!
Verification development for the roboplc-io-ads crate: a shallow embedding of
the ADS/AMS client request engine, the sum-up buffer fix-up, the UDP message
codec, the notification frame parser and the notification-handle tracking, with
theorems settling the specified properties.

Bytes are modelled as natural numbers; wherever the Rust code narrows a wider
integer to u8/u16/u32 the model applies the corresponding `% 2^w` mask.
Fallible operations return `Option`/`Except`; a Rust panic (slice index out of
bounds, failed assertion, arithmetic underflow on usize) is modelled as `none`.
-/

namespace AdsSpec

/-! ### Byte-level utilities (little-endian, as produced by `byteorder::LE`) -/

/-- Little-endian encoding of a u16 value (`U16::new` / `write_u16::<LE>`). -/
def u16le (v : ℕ) : List ℕ := [v % 256, v / 256 % 256]

/-- Little-endian encoding of a u32 value (`U32::new` / `write_u32::<LE>`). -/
def u32le (v : ℕ) : List ℕ :=
  [v % 256, v / 256 % 256, v / 65536 % 256, v / 16777216 % 256]

/-- `ReadBytesExt::read_u16::<LE>` on a byte slice: consumes two bytes or
fails.  Bytes are masked to u8 range, reflecting the `u8` element type. -/
def readU16 : List ℕ → Option (ℕ × List ℕ)
  | a :: b :: r => some (a % 256 + 256 * (b % 256), r)
  | _ => none

/-- `ReadBytesExt::read_u32::<LE>`: consumes four bytes or fails. -/
def readU32 : List ℕ → Option (ℕ × List ℕ)
  | a :: b :: c :: d :: r =>
      some (a % 256 + 256 * (b % 256) + 65536 * (c % 256) + 16777216 * (d % 256), r)
  | _ => none

/-- `ReadBytesExt::read_u64::<LE>`: consumes eight bytes or fails. -/
def readU64 : List ℕ → Option (ℕ × List ℕ)
  | a :: b :: c :: d :: e :: f :: g :: h :: r =>
      some (a % 256 + 256 * (b % 256) + 65536 * (c % 256) + 16777216 * (d % 256)
            + 4294967296 * (e % 256) + 1099511627776 * (f % 256)
            + 281474976710656 * (g % 256) + 72057594037927936 * (h % 256), r)
  | _ => none

/-- Decode the u16 field stored little-endian at byte offset `k` of a buffer
(as done by `LE::read_u16(&buf[k..k+2])` when the bound check has passed). -/
def fieldU16 (l : List ℕ) (k : ℕ) : ℕ :=
  l.getD k 0 % 256 + 256 * (l.getD (k + 1) 0 % 256)

/-- Decode the u32 field stored little-endian at byte offset `k` of a buffer. -/
def fieldU32 (l : List ℕ) (k : ℕ) : ℕ :=
  l.getD k 0 % 256 + 256 * (l.getD (k + 1) 0 % 256)
    + 65536 * (l.getD (k + 2) 0 % 256) + 16777216 * (l.getD (k + 3) 0 % 256)

/-! ### AMS addresses and the AMS/TCP + AMS header -/

/-- `AmsAddr`: a 6-byte NetID plus a u16 port (netid.rs is summarized by its
wire format: 8 bytes, port little-endian). -/
structure AmsAddr where
  b0 : ℕ
  b1 : ℕ
  b2 : ℕ
  b3 : ℕ
  b4 : ℕ
  b5 : ℕ
  port : ℕ
deriving DecidableEq, Repr

instance : Inhabited AmsAddr := ⟨⟨0, 0, 0, 0, 0, 0, 0⟩⟩

/-- The 8-byte wire form of an `AmsAddr` (`write_to`): NetID bytes then the
port little-endian. -/
def AmsAddr.bytes (a : AmsAddr) : List ℕ :=
  [a.b0 % 256, a.b1 % 256, a.b2 % 256, a.b3 % 256, a.b4 % 256, a.b5 % 256]
    ++ u16le a.port

/-- The 38-byte AMS/TCP + AMS header built by `ClientInner::communicate`
(struct `AdsHeader` serialized by zerocopy, all fields little-endian):
ams_cmd=0, length, dest, src, command, state_flags=4, data_length,
error_code=0, invoke_id. -/
def adsHeaderBytes (adsDataLen : ℕ) (target source : AmsAddr)
    (cmd dataInLen invokeId : ℕ) : List ℕ :=
  u16le 0 ++ u32le adsDataLen ++ target.bytes ++ source.bytes
    ++ u16le cmd ++ u16le 4 ++ u32le dataInLen ++ u32le 0 ++ u32le invokeId

/-! ### The request engine `ClientInner::communicate` -/

/-- Errors surfaced by `communicate` (roboplc `Error` variants used there). -/
inductive CommError
  /-- `Error::invalid_data` from the length `try_into` conversions. -/
  | invalidData
  /-- `Error::io(msg)`. -/
  | ioErr (msg : String)
  /-- Modelled from the spec: `errors::ads_error(action, code)` (errors.rs is
  not part of the sources) maps a nonzero ADS code together with the failing
  command's action name to a domain error. -/
  | adsErr (action : String) (code : ℕ)
deriving DecidableEq, Repr

instance {ε α : Type} [DecidableEq ε] [DecidableEq α] : DecidableEq (Except ε α) :=
  fun a b =>
  match a, b with
  | .error x, .error y =>
      if h : x = y then .isTrue (by rw [h]) else .isFalse (by simp [h])
  | .ok x, .ok y =>
      if h : x = y then .isTrue (by rw [h]) else .isFalse (by simp [h])
  | .error _, .ok _ => .isFalse (by simp)
  | .ok _, .error _ => .isFalse (by simp)

/-- `Command::action` (client.rs), keyed by the numeric command code. -/
def actionOf (cmd : ℕ) : String :=
  if cmd = 1 then "get device info"
  else if cmd = 2 then "read data"
  else if cmd = 3 then "write data"
  else if cmd = 9 then "write and read data"
  else if cmd = 4 then "read state"
  else if cmd = 5 then "write control"
  else if cmd = 6 then "add notification"
  else if cmd = 7 then "delete notification"
  else "notification"

/-- How the wait on the delivery slot ends.  `delivered reply` means the
reader thread removed the registry entry and set the cell to `Ok(reply)`
(the only value it ever sets); `chanErr` covers both the timeout of
`cell.get_timeout` and channel teardown of `cell.get`, both mapped by the
`map_ch_err` macro. -/
inductive WaitOutcome
  | delivered (reply : List ℕ)
  | chanErr
deriving DecidableEq, Repr

/-- The copy loop distributing the reply payload into the caller's output
buffers (client.rs lines 442-452).  For each buffer, `n = min(buf.len,
rest_len)` bytes are copied from `reply[offset..offset+n]` into the front of
the buffer; the loop stops once `rest_len` hits zero.  `none` models the
slice-bound panic of `&reply[offset..][..n]`. -/
def distribute (reply : List ℕ) : ℕ → ℕ → List (List ℕ) → Option (List (List ℕ))
  | _, _, [] => some []
  | offset, restLen, buf :: bufs =>
      let n := min buf.length restLen
      if offset + n ≤ reply.length then
        let buf' := (reply.drop offset).take n ++ buf.drop n
        if restLen - n = 0 then some (buf' :: bufs)
        else (distribute reply (offset + n) (restLen - n) bufs).map (buf' :: ·)
      else none

/-- Reply validation and payload distribution of `ClientInner::communicate`
(client.rs lines 383-458), applied to a delivered reply buffer.  Returns
`none` for the panic of the `reply[14..22]` slice when the reply is shorter
than 22 bytes, and for panics inside the copy loop. -/
def processReply (request : List ℕ) (cmd invokeId : ℕ) (dataOut : List (List ℕ))
    (reply : List ℕ) : Option (Except CommError (ℕ × List (List ℕ))) :=
  if reply.length < 22 then none
  else if (reply.drop 14).take 8 ≠ (request.drop 6).take 8 then
    some (.error (.ioErr "unexpected source address"))
  else if reply.length < 38 then some (.error (.ioErr "reply too short"))
  else if fieldU16 reply 22 ≠ cmd % 65536 then some (.error (.ioErr "unexpected command"))
  else if fieldU16 reply 24 ≠ 5 then some (.error (.ioErr "unexpected state flags"))
  else if fieldU32 reply 34 ≠ invokeId % 4294967296 then
    some (.error (.ioErr "unexpected invoke ID"))
  else if fieldU32 reply 30 ≠ 0 then
    some (.error (.adsErr (actionOf cmd) (fieldU32 reply 30)))
  else if (if 42 ≤ reply.length then fieldU32 reply 38 else 0) ≠ 0 then
    some (.error (.adsErr (actionOf cmd)
      (if 42 ≤ reply.length then fieldU32 reply 38 else 0)))
  else
    match dataOut with
    | [] => some (.ok (0, []))
    | buf0 :: _ =>
      if fieldU32 reply 26 < buf0.length + 4 then
        some (.error (.ioErr "got less data than expected"))
      else
        match distribute reply 42 (fieldU32 reply 26 - 4) dataOut with
        | none => none
        | some out => some (.ok (fieldU32 reply 26 - 4, out))

/-- `ClientInner::communicate` together with its effect on the reply
registry (modelled as the set of registered invoke IDs).  `writeOk` is the
outcome of `self.client.write(&request)`; `outcome` is the outcome of the
wait on the delivery slot.  Returns the resulting registry and the call's
result (`none` = panic).  The order of events follows the source: the length
conversion may fail before the registry insert; the insert happens before
the write; a write failure propagates with `?`; on `chanErr` the engine
removes the entry; on delivery the reader has already removed it. -/
def communicate (reg : Finset ℕ) (invokeId cmd : ℕ) (target source : AmsAddr)
    (dataIn : List (List ℕ)) (dataOut : List (List ℕ))
    (writeOk : Bool) (outcome : WaitOutcome) :
    Finset ℕ × Option (Except CommError (ℕ × List (List ℕ))) :=
  let dataInLen := (dataIn.map List.length).sum
  if 4294967295 < 32 + dataInLen then (reg, some (.error .invalidData))
  else
    let request := adsHeaderBytes (32 + dataInLen) target source cmd dataInLen invokeId
      ++ dataIn.flatten
    let reg1 := insert invokeId reg
    if writeOk then
      match outcome with
      | .chanErr => (reg1.erase invokeId, some (.error (.ioErr "channel")))
      | .delivered reply =>
          (reg1.erase invokeId, processReply request cmd invokeId dataOut reply)
    else (reg1, some (.error (.ioErr "write")))

/-- Bytes 6..14 of the request buffer are the destination address. -/
theorem request_slice_6_14 (adsDataLen : ℕ) (target source : AmsAddr)
    (cmd dataInLen invokeId : ℕ) (rest : List ℕ) :
    ((adsHeaderBytes adsDataLen target source cmd dataInLen invokeId ++ rest).drop 6).take 8
      = target.bytes := by
  simp [adsHeaderBytes, u16le, u32le, AmsAddr.bytes]

/-- C1 counterexample: when the socket write fails, `communicate` propagates
the error with `?` (client.rs line 357) without removing the registry entry it
inserted on line 356, so after the call returns the registry still contains
the assigned invoke ID.  Concrete input: empty registry, invoke ID 0, a Read
command with no payload, write failure. -/
theorem C1_counterexample :
    0 ∈ (communicate ∅ 0 2 default default [] [] false WaitOutcome.chanErr).1 := by
  decide

/-- C1 (amended): on every exit path of `communicate` other than a socket
write failure — length-conversion failure before registration, timeout or
channel teardown of the wait, and every reply-delivery path (the reader
removes the entry before setting the cell, so validation failures and
successes alike leave it absent) — the registry afterwards contains no entry
for the invoke ID the call assigned (assumed fresh, as fetch_add guarantees
among live requests). -/
theorem C1_registry_clean_except_write_failure (reg : Finset ℕ)
    (invokeId cmd : ℕ) (target source : AmsAddr)
    (dataIn dataOut : List (List ℕ)) (outcome : WaitOutcome)
    (hfresh : invokeId ∉ reg) :
    invokeId ∉ (communicate reg invokeId cmd target source dataIn dataOut true outcome).1 := by
  unfold communicate
  dsimp only
  split
  · exact hfresh
  · cases outcome <;> simp [Finset.not_mem_erase]

/-- C1 amended witness: the amended theorem applied at a concrete input
(empty registry, invoke ID 0, delivered empty reply). -/
theorem C1_witness :
    0 ∉ (communicate ∅ 0 2 default default [] []
          true (WaitOutcome.delivered [])).1 :=
  C1_registry_clean_except_write_failure ∅ 0 2 default default [] []
    (WaitOutcome.delivered []) (by decide)

/-- C2 counterexample: a delivered reply buffer of 20 bytes (shorter than 38)
makes `communicate` panic on the slice expression `reply[14..22]`
(client.rs line 384), which is evaluated before the `len >= 38` check;
the model yields `none` (panic) instead of `Io("reply too short")`. -/
theorem C2_counterexample :
    (communicate ∅ 0 2 default default [] [] true
        (WaitOutcome.delivered (List.replicate 20 0))).2 = none := by
  decide

/-- C2 (amended): a delivered reply shorter than 38 bytes yields
`Io("reply too short")` only when it is at least 22 bytes long and its bytes
14..22 equal the request's destination address bytes 6..14; a reply shorter
than 22 bytes panics on the `reply[14..22]` slice, and a reply of 22..37
bytes with mismatching source bytes yields `Io("unexpected source address")`
instead. -/
theorem C2_short_reply (reg : Finset ℕ) (invokeId cmd : ℕ)
    (target source : AmsAddr) (dataIn dataOut : List (List ℕ)) (reply : List ℕ)
    (hnoov : 32 + (dataIn.map List.length).sum ≤ 4294967295)
    (h22 : 22 ≤ reply.length) (h38 : reply.length < 38)
    (hsrc : (reply.drop 14).take 8 = target.bytes) :
    (communicate reg invokeId cmd target source dataIn dataOut true
        (WaitOutcome.delivered reply)).2
      = some (.error (.ioErr "reply too short")) := by
  unfold communicate
  rw [if_neg (by omega)]
  dsimp only
  rw [if_pos rfl]
  unfold processReply
  rw [if_neg (by omega), request_slice_6_14, if_neg (by simp [hsrc]), if_pos h38]

/-- C2 amended witness: a 22-byte all-zero reply to a request addressed to
the all-zero address returns `Io("reply too short")`. -/
theorem C2_witness :
    (communicate ∅ 0 2 default default [] [] true
        (WaitOutcome.delivered (List.replicate 22 0))).2
      = some (.error (.ioErr "reply too short")) :=
  C2_short_reply ∅ 0 2 default default [] [] (List.replicate 22 0)
    (by decide) (by decide) (by decide) (by decide)

/-- The payload distribution as the spec describes it: the payload bytes are
copied into the output buffers in order, each buffer receiving
`min(buf.len, remaining)` bytes, stopping once the remainder is zero. -/
def distributeSpec (payload : List ℕ) : List (List ℕ) → List (List ℕ)
  | [] => []
  | buf :: bufs =>
      (payload.take (min buf.length payload.length)
          ++ buf.drop (min buf.length payload.length)) ::
        (if payload.length ≤ min buf.length payload.length then bufs
         else distributeSpec (payload.drop (min buf.length payload.length)) bufs)

/-- When the reply holds at least `offset + restLen` bytes, the code's copy
loop cannot panic and agrees with the spec-level distribution of the
`restLen` payload bytes starting at `offset`. -/
theorem distribute_eq_spec (reply : List ℕ) (bufs : List (List ℕ)) :
    ∀ (offset restLen : ℕ), offset + restLen ≤ reply.length →
      distribute reply offset restLen bufs
        = some (distributeSpec ((reply.drop offset).take restLen) bufs) := by
  induction bufs with
  | nil => intro o r _; rfl
  | cons buf bufs ih =>
    intro offset restLen h
    have hlenp : ((reply.drop offset).take restLen).length = restLen := by
      simp only [List.length_take, List.length_drop]
      omega
    unfold distribute distributeSpec
    rw [hlenp]
    rw [if_pos (by omega : offset + min buf.length restLen ≤ reply.length)]
    have htake : ((reply.drop offset).take restLen).take (min buf.length restLen)
        = (reply.drop offset).take (min buf.length restLen) := by
      rw [List.take_take]
      congr 1
      omega
    by_cases hstop : restLen - min buf.length restLen = 0
    · rw [if_pos hstop, if_pos (by omega), htake]
    · rw [if_neg hstop, if_neg (by omega)]
      rw [ih (offset + min buf.length restLen) (restLen - min buf.length restLen)
        (by omega)]
      have hdrop : ((reply.drop offset).take restLen).drop (min buf.length restLen)
          = (reply.drop (offset + min buf.length restLen)).take
              (restLen - min buf.length restLen) := by
        rw [List.drop_take, List.drop_drop]
      rw [htake, hdrop]
      rfl

/-- Reply validation succeeds and the payload is distributed per the spec
whenever the reply carries the matching source address, command, state
flags 5, invoke ID, zero AMS error code and zero payload result, and its
length is consistent with its data_length field (which the reader thread
guarantees for every reply it delivers). -/
theorem processReply_validated (request : List ℕ) (cmd invokeId : ℕ)
    (dataOut : List (List ℕ)) (reply : List ℕ)
    (hsrc : (reply.drop 14).take 8 = (request.drop 6).take 8)
    (hcmd : fieldU16 reply 22 = cmd % 65536)
    (hstate : fieldU16 reply 24 = 5)
    (hinv : fieldU32 reply 34 = invokeId % 4294967296)
    (herr : fieldU32 reply 30 = 0)
    (hres : 42 ≤ reply.length → fieldU32 reply 38 = 0)
    (hlen : reply.length = 38 + fieldU32 reply 26) :
    processReply request cmd invokeId dataOut reply
      = some (match dataOut with
          | [] => .ok (0, [])
          | buf0 :: _ =>
            if fieldU32 reply 26 < buf0.length + 4 then
              .error (.ioErr "got less data than expected")
            else .ok (fieldU32 reply 26 - 4,
              distributeSpec ((reply.drop 42).take (fieldU32 reply 26 - 4)) dataOut)) := by
  have hr : (if 42 ≤ reply.length then fieldU32 reply 38 else 0) = 0 := by
    split
    · exact hres ‹_›
    · rfl
  unfold processReply
  rw [if_neg (by omega), if_neg (by simp [hsrc]), if_neg (by omega),
    if_neg (by simp [hcmd]), if_neg (by simp [hstate]), if_neg (by simp [hinv]),
    if_neg (by simp [herr]), if_neg (by simp [hr])]
  cases dataOut with
  | nil => rfl
  | cons buf0 rest =>
    dsimp only
    by_cases hfit : fieldU32 reply 26 < buf0.length + 4
    · rw [if_pos hfit, if_pos hfit]
    · rw [if_neg hfit, if_neg hfit]
      rw [distribute_eq_spec reply (buf0 :: rest) 42 (fieldU32 reply 26 - 4) (by omega)]

/-- C4: for every `communicate` call that passes reply validation, an empty
`data_out` yields `Ok(0)`; otherwise a reply data_length smaller than
`data_out[0].len + 4` fails with `Io("got less data than expected")`, and
else `data_length - 4` payload bytes starting at reply offset 42 are
distributed into the buffers in order (`min(buf.len, remaining)` bytes each,
until the remainder is zero) and `Ok(data_length - 4)` is returned.  The
hypotheses state the validation conditions; `hlen` is the length consistency
the reader thread establishes for every reply it delivers. -/
theorem C4_validated_distribution (reg : Finset ℕ) (invokeId cmd : ℕ)
    (target source : AmsAddr) (dataIn dataOut : List (List ℕ)) (reply : List ℕ)
    (hnoov : 32 + (dataIn.map List.length).sum ≤ 4294967295)
    (hsrc : (reply.drop 14).take 8 = target.bytes)
    (hcmd : fieldU16 reply 22 = cmd % 65536)
    (hstate : fieldU16 reply 24 = 5)
    (hinv : fieldU32 reply 34 = invokeId % 4294967296)
    (herr : fieldU32 reply 30 = 0)
    (hres : 42 ≤ reply.length → fieldU32 reply 38 = 0)
    (hlen : reply.length = 38 + fieldU32 reply 26) :
    (communicate reg invokeId cmd target source dataIn dataOut true
        (WaitOutcome.delivered reply)).2
      = some (match dataOut with
          | [] => .ok (0, [])
          | buf0 :: _ =>
            if fieldU32 reply 26 < buf0.length + 4 then
              .error (.ioErr "got less data than expected")
            else .ok (fieldU32 reply 26 - 4,
              distributeSpec ((reply.drop 42).take (fieldU32 reply 26 - 4)) dataOut)) := by
  unfold communicate
  rw [if_neg (by omega)]
  dsimp only
  rw [if_pos rfl]
  exact processReply_validated _ cmd invokeId dataOut reply
    (by rw [request_slice_6_14]; exact hsrc) hcmd hstate hinv herr hres hlen

/-- A concrete validated reply: 44 bytes, command 2 (Read), state flags 5,
data_length 6, zero error/invoke/result fields, payload bytes `[7, 8]`. -/
def c4reply : List ℕ :=
  List.replicate 22 0 ++ [2, 0, 5, 0, 6, 0, 0, 0] ++ List.replicate 12 0 ++ [7, 8]

/-- C4 witness: the theorem applied to the concrete reply `c4reply` and one
two-byte output buffer distributes the payload `[7, 8]` and returns 2. -/
theorem C4_witness :
    (communicate ∅ 0 2 default default [] [[9, 9]] true
        (WaitOutcome.delivered c4reply)).2 = some (.ok (2, [[7, 8]])) :=
  (C4_validated_distribution ∅ 0 2 default default [] [[9, 9]] c4reply
    (by decide) (by decide) (by decide) (by decide) (by decide) (by decide)
    (by decide) (by decide)).trans (by decide)

/-- The number of payload bytes still to distribute when buffer `k` is
reached: starts at the payload length, and each earlier buffer consumes
`min(buf.len, remaining)` bytes. -/
def remAt : ℕ → List (List ℕ) → ℕ → ℕ
  | p, _, 0 => p
  | p, [], _ + 1 => p
  | p, buf :: bufs, k + 1 => remAt (p - min buf.length p) bufs k

/-- Frame property of the spec-level distribution: each output buffer keeps
its original bytes beyond the `min(buf.len, remaining)`-byte prefix it
received, and a buffer reached with zero remaining bytes is kept whole. -/
theorem distributeSpec_frame (bufs : List (List ℕ)) :
    ∀ (payload : List ℕ) (k : ℕ),
      (((distributeSpec payload bufs).getD k []).drop
          (min ((bufs.getD k []).length) (remAt payload.length bufs k))
        = (bufs.getD k []).drop
            (min ((bufs.getD k []).length) (remAt payload.length bufs k)))
      ∧ (remAt payload.length bufs k = 0 →
          (distributeSpec payload bufs).getD k [] = bufs.getD k []) := by
  induction bufs with
  | nil =>
    intro payload k
    exact ⟨rfl, fun _ => rfl⟩
  | cons buf bufs ih =>
    intro payload k
    cases k with
    | zero =>
      simp only [distributeSpec, remAt, List.getD_cons_zero]
      constructor
      · rw [List.drop_left' (by rw [List.length_take]; omega :
          (payload.take (min buf.length payload.length)).length
            = min buf.length payload.length)]
      · intro h0
        have : payload = [] := List.eq_nil_of_length_eq_zero h0
        subst this
        simp
    | succ k =>
      simp only [distributeSpec, remAt, List.getD_cons_succ]
      by_cases hstop : payload.length ≤ min buf.length payload.length
      · rw [if_pos hstop]
        exact ⟨rfl, fun _ => rfl⟩
      · rw [if_neg hstop]
        have h := ih (payload.drop (min buf.length payload.length)) k
        rw [List.length_drop] at h
        exact h

/-- C10: for a successful `communicate` with non-empty `data_out`, every
output buffer keeps the bytes beyond the prefix it received from the reply,
and every buffer reached after the remaining count hit zero is returned
entirely unchanged.  Hypotheses are the validation conditions of a delivered
reply plus non-emptiness of `data_out` and the length requirement the
success path checks. -/
theorem C10_untouched_suffixes (reg : Finset ℕ) (invokeId cmd : ℕ)
    (target source : AmsAddr) (dataIn dataOut : List (List ℕ)) (reply : List ℕ)
    (hnoov : 32 + (dataIn.map List.length).sum ≤ 4294967295)
    (hsrc : (reply.drop 14).take 8 = target.bytes)
    (hcmd : fieldU16 reply 22 = cmd % 65536)
    (hstate : fieldU16 reply 24 = 5)
    (hinv : fieldU32 reply 34 = invokeId % 4294967296)
    (herr : fieldU32 reply 30 = 0)
    (hres : 42 ≤ reply.length → fieldU32 reply 38 = 0)
    (hlen : reply.length = 38 + fieldU32 reply 26)
    (hne : dataOut ≠ [])
    (hfit : (dataOut.headD []).length + 4 ≤ fieldU32 reply 26) :
    ∃ out, (communicate reg invokeId cmd target source dataIn dataOut true
        (WaitOutcome.delivered reply)).2 = some (.ok (fieldU32 reply 26 - 4, out))
      ∧ ∀ k,
        ((out.getD k []).drop
            (min ((dataOut.getD k []).length) (remAt (fieldU32 reply 26 - 4) dataOut k))
          = (dataOut.getD k []).drop
              (min ((dataOut.getD k []).length) (remAt (fieldU32 reply 26 - 4) dataOut k)))
        ∧ (remAt (fieldU32 reply 26 - 4) dataOut k = 0 →
            out.getD k [] = dataOut.getD k []) := by
  unfold communicate
  rw [if_neg (by omega)]
  dsimp only
  rw [if_pos rfl]
  rw [processReply_validated _ cmd invokeId dataOut reply
    (by rw [request_slice_6_14]; exact hsrc) hcmd hstate hinv herr hres hlen]
  cases dataOut with
  | nil => exact absurd rfl hne
  | cons buf0 rest =>
    dsimp only
    rw [if_neg (by simp at hfit; omega)]
    refine ⟨_, rfl, ?_⟩
    intro k
    have hplen : ((reply.drop 42).take (fieldU32 reply 26 - 4)).length
        = fieldU32 reply 26 - 4 := by
      simp only [List.length_take, List.length_drop]
      omega
    have := distributeSpec_frame (buf0 :: rest)
      ((reply.drop 42).take (fieldU32 reply 26 - 4)) k
    rw [hplen] at this
    exact this

/-- C10 witness: the theorem applied to the concrete reply `c4reply` with
output buffers `[[9], [6, 6, 6]]`: data_length 6 gives a 2-byte payload, the
first buffer gets one byte, the second buffer gets one byte and keeps its
last two, so `[[7], [8, 6, 6]]` with all suffixes intact. -/
theorem C10_witness :
    ∃ out, (communicate ∅ 0 2 default default [] [[9], [6, 6, 6]] true
        (WaitOutcome.delivered c4reply)).2 = some (.ok (2, out))
      ∧ ∀ k,
        ((out.getD k []).drop
            (min (([[9], [6, 6, 6]].getD k (List.nil)).length)
              (remAt 2 [[9], [6, 6, 6]] k))
          = ([[9], [6, 6, 6]].getD k (List.nil)).drop
              (min (([[9], [6, 6, 6]].getD k (List.nil)).length)
                (remAt 2 [[9], [6, 6, 6]] k)))
        ∧ (remAt 2 [[9], [6, 6, 6]] k = 0 →
            out.getD k [] = [[9], [6, 6, 6]].getD k (List.nil)) :=
  C10_untouched_suffixes ∅ 0 2 default default [] [[9], [6, 6, 6]] c4reply
    (by decide) (by decide) (by decide) (by decide) (by decide) (by decide)
    (by decide) (by decide) (by decide) (by decide)

/-! ### The sum-up return-buffer fix-up `fixup_write_read_return_buffers` -/

/-- A `WriteReadRequest` reduced to the state the fix-up reads and writes:
the read buffer `rbuf` and the result length `res.length` reported by the
server. -/
structure WRReq where
  rbuf : List ℕ
  res : ℕ
deriving DecidableEq, Repr

instance : Inhabited WRReq := ⟨⟨[], 0⟩⟩

/-- The `scan` computing per request the cumulative initial offset (buffer
sizes before it), cumulative actual offset (result sizes before it), its
buffer size and its result size (client.rs lines 1490-1500). -/
def offsetsOf : ℕ → ℕ → List WRReq → List (ℕ × ℕ × ℕ × ℕ)
  | _, _, [] => []
  | ic, ac, r :: rs =>
      (ic, ac, r.rbuf.length, r.res) :: offsetsOf (ic + r.rbuf.length) (ac + r.res) rs

/-- `Iterator::rposition` specialized to the predicate `r.0 < tgt` over the
first `k` entries: the greatest index `j < k` whose initial offset is below
`tgt`. -/
def rposGo (offs : List (ℕ × ℕ × ℕ × ℕ)) (tgt : ℕ) : ℕ → Option ℕ
  | 0 => none
  | k + 1 => if (offs.getD k default).1 < tgt then some k else rposGo offs tgt k

/-- Write `src` into `dst` starting at position `pos`, keeping the rest. -/
def listCopy (dst : List ℕ) (pos : ℕ) (src : List ℕ) : List ℕ :=
  dst.take pos ++ src ++ dst.drop (pos + src.length)

/-- One copy of the inner loop body (client.rs lines 1525-1529): move the
`n` bytes ending at `jEnd` of buffer `j` to position `size'` of buffer `i`.
`none` models the panics of `copy_within` / slice indexing /
`split_at_mut`-based indexing when a bound fails. -/
def copyStep (i j jEnd n size' : ℕ) (reqs : List WRReq) : Option (List WRReq) :=
  if i = j then
    if i < reqs.length ∧ jEnd ≤ (reqs.getD i default).rbuf.length
        ∧ size' + n ≤ (reqs.getD i default).rbuf.length then
      some (reqs.set i
        ⟨listCopy (reqs.getD i default).rbuf size'
            (((reqs.getD i default).rbuf.drop (jEnd - n)).take n),
          (reqs.getD i default).res⟩)
    else none
  else
    if j < i ∧ i < reqs.length ∧ size' + n ≤ (reqs.getD i default).rbuf.length
        ∧ jEnd ≤ (reqs.getD j default).rbuf.length then
      some (reqs.set i
        ⟨listCopy (reqs.getD i default).rbuf size'
            (((reqs.getD j default).rbuf.drop (jEnd - n)).take n),
          (reqs.getD i default).res⟩)
    else none

/-- The inner loop of the fix-up (client.rs lines 1522-1536): copy backward
across buffers `j, j-1, ...` until `size` bytes have been moved into buffer
`i`.  The `none` on `j = 0` with bytes still to copy models the usize
underflow of `j -= 1`. -/
def innerLoop (offs : List (ℕ × ℕ × ℕ × ℕ)) (i : ℕ) :
    ℕ → ℕ → ℕ → List WRReq → Option (List WRReq)
  | 0, jEnd, size, reqs =>
    match copyStep i 0 jEnd (min jEnd size) (size - min jEnd size) reqs with
    | none => none
    | some reqs' => if size - min jEnd size = 0 then some reqs' else none
  | j + 1, jEnd, size, reqs =>
    match copyStep i (j + 1) jEnd (min jEnd size) (size - min jEnd size) reqs with
    | none => none
    | some reqs' =>
      if size - min jEnd size = 0 then some reqs'
      else innerLoop offs i j (offs.getD j default).2.2.1 (size - min jEnd size) reqs'

/-- The outer loop of the fix-up over request indices in reverse order
(client.rs lines 1503-1537): `continue` on zero result size, `break` once
the initial and actual offsets agree, otherwise locate the buffer holding
the request's last actual byte and run the inner copy loop.  The `none` on a
failed `rposition` models its `expect`. -/
def outerLoop (offs : List (ℕ × ℕ × ℕ × ℕ)) :
    List ℕ → List WRReq → Option (List WRReq)
  | [], reqs => some reqs
  | i :: is, reqs =>
    if (offs.getD i default).2.2.2 = 0 then outerLoop offs is reqs
    else if (offs.getD i default).1 = (offs.getD i default).2.1 then some reqs
    else
      match rposGo (offs.take (i + 1))
          ((offs.getD i default).2.1 + (offs.getD i default).2.2.2)
          (offs.take (i + 1)).length with
      | none => none
      | some j =>
        match innerLoop offs i j
            ((offs.getD i default).2.1 + (offs.getD i default).2.2.2
              - (offs.getD j default).1)
            (offs.getD i default).2.2.2 reqs with
        | none => none
        | some reqs' => outerLoop offs is reqs'

/-- `fixup_write_read_return_buffers` (client.rs lines 1487-1538).  The
up-front `none` when some result length exceeds its buffer length models the
`assert!(init >= act)` inside the offsets scan, which is forced for every
request when the scan is collected. -/
def fixup_write_read_return_buffers (reqs : List WRReq) : Option (List WRReq) :=
  if reqs.any (fun r => r.rbuf.length < r.res) then none
  else outerLoop (offsetsOf 0 0 reqs) ((List.range reqs.length).reverse) reqs

/-- The six requests of the sum-up short-read scenario: buffer lengths
`[10, 7, 6, 4, 6, 13]` holding the contiguously packed returned bytes
`"12345678ABCDEFabcdxyUVWXYZYXW"` (ASCII codes), trailing bytes 45 (`-`),
with result lengths `[8, 6, 0, 4, 2, 9]`. -/
def c3reqs : List WRReq :=
  [⟨[49, 50, 51, 52, 53, 54, 55, 56, 65, 66], 8⟩,
   ⟨[67, 68, 69, 70, 97, 98, 99], 6⟩,
   ⟨[100, 120, 121, 85, 86, 87], 0⟩,
   ⟨[88, 89, 90, 89], 4⟩,
   ⟨[88, 87, 45, 45, 45, 45], 2⟩,
   ⟨[45, 45, 45, 45, 45, 45, 45, 45, 45, 45, 45, 45, 45], 9⟩]

/-- C3: on the six-request short-read scenario the fix-up succeeds and each
buffer's first result-length bytes are `"12345678"`, `"ABCDEF"`, `""`,
`"abcd"`, `"xy"`, `"UVWXYZYXW"` respectively. -/
theorem C3_sumup_scenario :
    (fixup_write_read_return_buffers c3reqs).map
        (List.map (fun r => r.rbuf.take r.res))
      = some [[49, 50, 51, 52, 53, 54, 55, 56],
              [65, 66, 67, 68, 69, 70],
              [],
              [97, 98, 99, 100],
              [120, 121],
              [85, 86, 87, 88, 89, 90, 89, 88, 87]] := by
  decide

/-- When every request's result length equals its buffer length, every scan
entry has equal initial and actual offsets. -/
theorem offsetsOf_fst_eq_of_full (reqs : List WRReq)
    (h : ∀ r ∈ reqs, r.res = r.rbuf.length) :
    ∀ (a i : ℕ), i < reqs.length →
      ((offsetsOf a a reqs).getD i default).1
        = ((offsetsOf a a reqs).getD i default).2.1 := by
  induction reqs with
  | nil => intro a i hi; simp at hi
  | cons r rs ih =>
    intro a i hi
    cases i with
    | zero => rfl
    | succ i =>
      have hr : r.res = r.rbuf.length := h r (List.mem_cons_self r rs)
      simp only [offsetsOf, List.getD_cons_succ]
      rw [show a + r.rbuf.length = a + r.res by rw [hr]]
      exact ih (fun x hx => h x (List.mem_cons_of_mem _ hx)) (a + r.res) i
        (by simpa using hi)

/-- Under full result lengths the outer loop leaves the requests untouched:
each index either has zero size (`continue`) or matching offsets (`break`). -/
theorem outerLoop_id_of_full (reqs : List WRReq)
    (h : ∀ r ∈ reqs, r.res = r.rbuf.length) :
    ∀ is : List ℕ, (∀ i ∈ is, i < reqs.length) →
      outerLoop (offsetsOf 0 0 reqs) is reqs = some reqs := by
  intro is
  induction is with
  | nil => intro _; rfl
  | cons i is ih =>
    intro his
    have hi : i < reqs.length := his i (List.mem_cons_self i is)
    unfold outerLoop
    by_cases hz : ((offsetsOf 0 0 reqs).getD i default).2.2.2 = 0
    · rw [if_pos hz]
      exact ih fun x hx => his x (List.mem_cons_of_mem _ hx)
    · rw [if_neg hz, if_pos (offsetsOf_fst_eq_of_full reqs h 0 i hi)]

/-- C6: if every request's result length equals its read-buffer length,
`fixup_write_read_return_buffers` succeeds and leaves every buffer (indeed
the whole request list) unchanged. -/
theorem C6_fixup_noop (reqs : List WRReq)
    (h : ∀ r ∈ reqs, r.res = r.rbuf.length) :
    fixup_write_read_return_buffers reqs = some reqs := by
  unfold fixup_write_read_return_buffers
  have hany : reqs.any (fun r => r.rbuf.length < r.res) = false := by
    rw [List.any_eq_false]
    intro r hr
    rw [h r hr]
    simp
  rw [hany]
  rw [if_neg (by simp)]
  exact outerLoop_id_of_full reqs h ((List.range reqs.length).reverse)
    (fun i hi => by
      have := List.mem_reverse.mp hi
      exact List.mem_range.mp this)

/-- C6 witness: on two requests with full result lengths the fix-up is the
identity. -/
theorem C6_witness :
    fixup_write_read_return_buffers [⟨[1, 2, 3], 3⟩, ⟨[4, 5], 2⟩]
      = some [⟨[1, 2, 3], 3⟩, ⟨[4, 5], 2⟩] :=
  C6_fixup_noop [⟨[1, 2, 3], 3⟩, ⟨[4, 5], 2⟩] (by decide)

/-! ### Panic-freedom of the fix-up (claim C9) -/

/-- Sum of buffer lengths. -/
def sumL (l : List WRReq) : ℕ := (l.map fun r => r.rbuf.length).sum

/-- Sum of result lengths. -/
def sumR (l : List WRReq) : ℕ := (l.map fun r => r.res).sum

/-- Cumulative initial offset of request `k`. -/
def initOff (reqs : List WRReq) (k : ℕ) : ℕ := sumL (reqs.take k)

/-- Cumulative actual offset of request `k`. -/
def actOff (reqs : List WRReq) (k : ℕ) : ℕ := sumR (reqs.take k)

/-- Buffer length of request `k`. -/
def lenAt (reqs : List WRReq) (k : ℕ) : ℕ := (reqs.getD k default).rbuf.length

/-- Result length of request `k`. -/
def actAt (reqs : List WRReq) (k : ℕ) : ℕ := (reqs.getD k default).res

theorem offsetsOf_length (reqs : List WRReq) :
    ∀ (a b : ℕ), (offsetsOf a b reqs).length = reqs.length := by
  induction reqs with
  | nil => intro a b; rfl
  | cons r rs ih => intro a b; simp [offsetsOf, ih]

/-- Each scan entry holds the cumulative offsets and the request's sizes. -/
theorem offsetsOf_getD (reqs : List WRReq) :
    ∀ (a b k : ℕ), k < reqs.length →
      (offsetsOf a b reqs).getD k default
        = (a + initOff reqs k, b + actOff reqs k, lenAt reqs k, actAt reqs k) := by
  induction reqs with
  | nil => intro a b k hk; simp at hk
  | cons r rs ih =>
    intro a b k hk
    cases k with
    | zero => simp [offsetsOf, initOff, actOff, lenAt, actAt, sumL, sumR]
    | succ k =>
      simp only [offsetsOf, List.getD_cons_succ]
      rw [ih (a + r.rbuf.length) (b + r.res) k (by simpa using hk)]
      simp only [initOff, actOff, lenAt, actAt, sumL, sumR, List.take_succ_cons,
        List.map_cons, List.sum_cons, List.getD_cons_succ]
      simp [Nat.add_assoc]

theorem initOff_succ (reqs : List WRReq) (k : ℕ) (hk : k < reqs.length) :
    initOff reqs (k + 1) = initOff reqs k + lenAt reqs k := by
  induction reqs generalizing k with
  | nil => simp at hk
  | cons r rs ih =>
    cases k with
    | zero => simp [initOff, lenAt, sumL]
    | succ k =>
      simp only [initOff, lenAt, sumL, List.take_succ_cons, List.map_cons,
        List.sum_cons, List.getD_cons_succ] at *
      have := ih k (by simpa using hk)
      omega

theorem initOff_zero (reqs : List WRReq) : initOff reqs 0 = 0 := rfl

theorem actOff_le_initOff (reqs : List WRReq)
    (hba : ∀ r ∈ reqs, r.res ≤ r.rbuf.length) (k : ℕ) :
    actOff reqs k ≤ initOff reqs k := by
  unfold actOff initOff sumR sumL
  induction reqs generalizing k with
  | nil => simp
  | cons r rs ih =>
    cases k with
    | zero => simp
    | succ k =>
      simp only [List.take_succ_cons, List.map_cons, List.sum_cons]
      have h1 := hba r (List.mem_cons_self r rs)
      have h2 := ih (fun x hx => hba x (List.mem_cons_of_mem _ hx)) k
      omega

theorem actAt_le_lenAt (reqs : List WRReq)
    (hba : ∀ r ∈ reqs, r.res ≤ r.rbuf.length) (k : ℕ) (hk : k < reqs.length) :
    actAt reqs k ≤ lenAt reqs k := by
  have hm : reqs.getD k default ∈ reqs := by
    rw [List.getD_eq_getElem reqs default hk]
    exact List.getElem_mem hk
  exact hba _ hm

theorem listCopy_length (dst : List ℕ) (pos : ℕ) (src : List ℕ)
    (h : pos + src.length ≤ dst.length) :
    (listCopy dst pos src).length = dst.length := by
  simp only [listCopy, List.length_append, List.length_take, List.length_drop]
  omega

/-- The fix-up only rewrites buffer contents: lengths and result sizes of
all requests are preserved. -/
def sameShape (reqs₀ reqs : List WRReq) : Prop :=
  reqs.length = reqs₀.length ∧
    ∀ k, (reqs.getD k default).rbuf.length = (reqs₀.getD k default).rbuf.length
      ∧ (reqs.getD k default).res = (reqs₀.getD k default).res

theorem sameShape_refl (reqs : List WRReq) : sameShape reqs reqs :=
  ⟨rfl, fun _ => ⟨rfl, rfl⟩⟩

theorem sameShape_trans {a b c : List WRReq}
    (h1 : sameShape a b) (h2 : sameShape b c) : sameShape a c :=
  ⟨h2.1.trans h1.1, fun k =>
    ⟨(h2.2 k).1.trans (h1.2 k).1, (h2.2 k).2.trans (h1.2 k).2⟩⟩

theorem getD_set_shape (l : List WRReq) (i : ℕ) (v : WRReq)
    (hlen : v.rbuf.length = (l.getD i default).rbuf.length)
    (hres : v.res = (l.getD i default).res) :
    sameShape l (l.set i v) := by
  refine ⟨by simp, fun k => ?_⟩
  by_cases hik : i = k
  · subst hik
    by_cases hi : i < l.length
    · rw [show (l.set i v).getD i default = v by
        simp [List.getD_eq_getElem?_getD, List.getElem?_set_self, hi]]
      exact ⟨hlen, hres⟩
    · rw [List.set_eq_of_length_le (by omega)]
      exact ⟨rfl, rfl⟩
  · rw [show (l.set i v).getD k default = l.getD k default by
      simp [List.getD_eq_getElem?_getD, List.getElem?_set_ne hik]]
    exact ⟨rfl, rfl⟩

/-- A successful `copyStep` preserves all buffer lengths and result sizes. -/
theorem copyStep_shape (i j jEnd n size' : ℕ) (reqs reqs' : List WRReq)
    (h : copyStep i j jEnd n size' reqs = some reqs') :
    sameShape reqs reqs' := by
  unfold copyStep at h
  by_cases hij : i = j
  · rw [if_pos hij] at h
    split at h
    · rename_i hc
      cases h
      exact getD_set_shape _ _ _
        (listCopy_length _ _ _ (by
          simp only [List.length_take, List.length_drop]
          omega)) rfl
    · exact absurd h (by simp)
  · rw [if_neg hij] at h
    split at h
    · rename_i hc
      cases h
      exact getD_set_shape _ _ _
        (listCopy_length _ _ _ (by
          simp only [List.length_take, List.length_drop]
          omega)) rfl
    · exact absurd h (by simp)

/-- `copyStep` succeeds whenever `j ≤ i < reqs.length`, `jEnd` is within
buffer `j` and `size' + n` within buffer `i`. -/
theorem copyStep_some (i j jEnd n size' : ℕ) (reqs : List WRReq)
    (hij : j ≤ i) (hi : i < reqs.length)
    (hjE : jEnd ≤ (reqs.getD j default).rbuf.length)
    (hsz : size' + n ≤ (reqs.getD i default).rbuf.length) :
    ∃ reqs', copyStep i j jEnd n size' reqs = some reqs' := by
  unfold copyStep
  by_cases h : i = j
  · subst h
    rw [if_pos rfl, if_pos ⟨hi, hjE, hsz⟩]
    exact ⟨_, rfl⟩
  · rw [if_neg h, if_pos ⟨by omega, hi, hsz, hjE⟩]
    exact ⟨_, rfl⟩

/-- The inner copy loop cannot panic: with `j ≤ i`, `jEnd` within buffer `j`,
the `size` bytes available up to absolute position `initOff j + jEnd` and
fitting in buffer `i`, it terminates successfully and preserves shapes. -/
theorem innerLoop_some (reqs₀ : List WRReq) (i : ℕ) (hi : i < reqs₀.length) :
    ∀ (j jEnd size : ℕ) (reqs : List WRReq),
      sameShape reqs₀ reqs → j ≤ i →
      jEnd ≤ lenAt reqs₀ j →
      size ≤ initOff reqs₀ j + jEnd →
      size ≤ lenAt reqs₀ i →
      ∃ reqs', innerLoop (offsetsOf 0 0 reqs₀) i j jEnd size reqs = some reqs'
        ∧ sameShape reqs₀ reqs' := by
  intro j
  induction j with
  | zero =>
    intro jEnd size reqs hsh hji hjE hszb hszi
    have hiR : i < reqs.length := by rw [hsh.1]; exact hi
    have hjE' : jEnd ≤ (reqs.getD 0 default).rbuf.length := by
      rw [(hsh.2 0).1]; exact hjE
    have hszi' : (size - min jEnd size) + min jEnd size
        ≤ (reqs.getD i default).rbuf.length := by
      rw [(hsh.2 i).1]
      have hL : (reqs₀.getD i default).rbuf.length = lenAt reqs₀ i := rfl
      omega
    obtain ⟨reqs', hc⟩ := copyStep_some i 0 jEnd (min jEnd size)
      (size - min jEnd size) reqs hji hiR hjE' hszi'
    have hsh' := sameShape_trans hsh (copyStep_shape _ _ _ _ _ _ _ hc)
    have h0 : initOff reqs₀ 0 = 0 := rfl
    have hdone : size - min jEnd size = 0 := by omega
    refine ⟨reqs', ?_, hsh'⟩
    simp only [innerLoop, hc]
    rw [if_pos hdone]
  | succ j ihj =>
    intro jEnd size reqs hsh hji hjE hszb hszi
    have hiR : i < reqs.length := by rw [hsh.1]; exact hi
    have hjE' : jEnd ≤ (reqs.getD (j + 1) default).rbuf.length := by
      rw [(hsh.2 (j + 1)).1]; exact hjE
    have hszi' : (size - min jEnd size) + min jEnd size
        ≤ (reqs.getD i default).rbuf.length := by
      rw [(hsh.2 i).1]
      have hL : (reqs₀.getD i default).rbuf.length = lenAt reqs₀ i := rfl
      omega
    obtain ⟨reqs', hc⟩ := copyStep_some i (j + 1) jEnd (min jEnd size)
      (size - min jEnd size) reqs hji hiR hjE' hszi'
    have hsh' := sameShape_trans hsh (copyStep_shape _ _ _ _ _ _ _ hc)
    by_cases hdone : size - min jEnd size = 0
    · refine ⟨reqs', ?_, hsh'⟩
      simp only [innerLoop, hc]
      rw [if_pos hdone]
    · have hn : min jEnd size = jEnd := by omega
      have hio : initOff reqs₀ (j + 1) = initOff reqs₀ j + lenAt reqs₀ j :=
        initOff_succ reqs₀ j (by omega)
      have hoj : (offsetsOf 0 0 reqs₀).getD j default
          = (0 + initOff reqs₀ j, 0 + actOff reqs₀ j, lenAt reqs₀ j, actAt reqs₀ j) :=
        offsetsOf_getD reqs₀ 0 0 j (by omega)
      obtain ⟨reqs'', hrec, hsh''⟩ := ihj (lenAt reqs₀ j) (size - min jEnd size) reqs'
        hsh' (by omega) (le_refl _) (by omega) (by omega)
      refine ⟨reqs'', ?_, hsh''⟩
      simp only [innerLoop, hc]
      rw [if_neg hdone, hoj]
      exact hrec

/-- `rposition` over the first `k` entries succeeds as soon as entry 0
satisfies the predicate, and the found index is the greatest satisfying
one. -/
theorem rposGo_spec (offs : List (ℕ × ℕ × ℕ × ℕ)) (tgt : ℕ) :
    ∀ k, 0 < k → (offs.getD 0 default).1 < tgt →
      ∃ j, rposGo offs tgt k = some j ∧ j < k ∧ (offs.getD j default).1 < tgt
        ∧ ∀ m, j < m → m < k → tgt ≤ (offs.getD m default).1 := by
  intro k
  induction k with
  | zero => intro h; omega
  | succ k ihk =>
    intro _ h0
    by_cases hk : (offs.getD k default).1 < tgt
    · refine ⟨k, ?_, by omega, hk, fun m hm1 hm2 => by omega⟩
      unfold rposGo
      rw [if_pos hk]
    · have hkpos : 0 < k := by
        rcases Nat.eq_zero_or_pos k with h | h
        · subst h; exact absurd h0 hk
        · exact h
      obtain ⟨j, hj1, hj2, hj3, hj4⟩ := ihk hkpos h0
      refine ⟨j, ?_, by omega, hj3, fun m hm1 hm2 => ?_⟩
      · unfold rposGo
        rw [if_neg hk]
        exact hj1
      · by_cases hmk : m = k
        · subst hmk
          omega
        · exact hj4 m hm1 (by omega)

theorem getD_take_off (l : List (ℕ × ℕ × ℕ × ℕ)) (m k : ℕ) (h : k < m) :
    (l.take m).getD k default = l.getD k default := by
  simp [List.getD_eq_getElem?_getD, List.getElem?_take, h]

/-- The outer loop of the fix-up cannot panic when every result length is
bounded by its buffer length. -/
theorem outerLoop_some (reqs₀ : List WRReq)
    (hba : ∀ r ∈ reqs₀, r.res ≤ r.rbuf.length) :
    ∀ (is : List ℕ) (reqs : List WRReq),
      (∀ i ∈ is, i < reqs₀.length) → sameShape reqs₀ reqs →
      ∃ reqs', outerLoop (offsetsOf 0 0 reqs₀) is reqs = some reqs'
        ∧ sameShape reqs₀ reqs' := by
  intro is
  induction is with
  | nil => intro reqs _ hsh; exact ⟨reqs, rfl, hsh⟩
  | cons i is ih =>
    intro reqs his hsh
    have hi : i < reqs₀.length := his i (List.mem_cons_self i is)
    have hoi : (offsetsOf 0 0 reqs₀).getD i default
        = (initOff reqs₀ i, actOff reqs₀ i, lenAt reqs₀ i, actAt reqs₀ i) := by
      rw [offsetsOf_getD reqs₀ 0 0 i hi]
      simp
    by_cases hz : actAt reqs₀ i = 0
    · obtain ⟨reqs', h', hsh'⟩ := ih reqs
        (fun x hx => his x (List.mem_cons_of_mem _ hx)) hsh
      refine ⟨reqs', ?_, hsh'⟩
      simp only [outerLoop, hoi]
      rw [if_pos hz]
      exact h'
    · by_cases hne : initOff reqs₀ i = actOff reqs₀ i
      · refine ⟨reqs, ?_, hsh⟩
        simp only [outerLoop, hoi]
        rw [if_neg hz, if_pos hne]
      · have hlt : ((offsetsOf 0 0 reqs₀).take (i + 1)).length = i + 1 := by
          rw [List.length_take, offsetsOf_length]
          omega
        have h00 : (((offsetsOf 0 0 reqs₀).take (i + 1)).getD 0 default).1
            < actOff reqs₀ i + actAt reqs₀ i := by
          rw [getD_take_off _ _ _ (by omega),
            offsetsOf_getD reqs₀ 0 0 0 (by omega)]
          have : initOff reqs₀ 0 = 0 := rfl
          simp only [this]
          omega
        obtain ⟨j, hj1, hj2, hj3, hj4⟩ := rposGo_spec
          ((offsetsOf 0 0 reqs₀).take (i + 1)) (actOff reqs₀ i + actAt reqs₀ i)
          (i + 1) (by omega) h00
        rw [getD_take_off _ _ _ hj2, offsetsOf_getD reqs₀ 0 0 j (by omega)] at hj3
        have hj3' : initOff reqs₀ j < actOff reqs₀ i + actAt reqs₀ i := by
          simpa using hj3
        have hoj : (offsetsOf 0 0 reqs₀).getD j default
            = (initOff reqs₀ j, actOff reqs₀ j, lenAt reqs₀ j, actAt reqs₀ j) := by
          rw [offsetsOf_getD reqs₀ 0 0 j (by omega)]
          simp
        have hAI := actOff_le_initOff reqs₀ hba i
        have haL := actAt_le_lenAt reqs₀ hba i hi
        have hjE : actOff reqs₀ i + actAt reqs₀ i - initOff reqs₀ j
            ≤ lenAt reqs₀ j := by
          by_cases hji : j = i
          · subst hji
            omega
          · have hmax := hj4 (j + 1) (by omega) (by omega)
            rw [getD_take_off _ _ _ (by omega),
              offsetsOf_getD reqs₀ 0 0 (j + 1) (by omega)] at hmax
            have hmax' : actOff reqs₀ i + actAt reqs₀ i ≤ initOff reqs₀ (j + 1) := by
              simpa using hmax
            have hsucc := initOff_succ reqs₀ j (by omega)
            omega
        obtain ⟨reqs', hinner, hsh'⟩ := innerLoop_some reqs₀ i hi j
          (actOff reqs₀ i + actAt reqs₀ i - initOff reqs₀ j) (actAt reqs₀ i)
          reqs hsh (by omega) hjE (by omega) haL
        obtain ⟨reqs'', hrec, hsh''⟩ := ih reqs'
          (fun x hx => his x (List.mem_cons_of_mem _ hx)) hsh'
        refine ⟨reqs'', ?_, hsh''⟩
        simp only [outerLoop, hoi]
        rw [if_neg hz, if_neg hne, hlt, hj1]
        simp only [hoj]
        rw [hinner]
        exact hrec

/-- C9: `fixup_write_read_return_buffers` succeeds without panicking exactly
when every request's result length is at most its read-buffer length; when
some result length exceeds its buffer length the run panics (the model's
`none`, reached through the up-front assertion check of the offsets scan). -/
theorem C9_fixup_panic_free (reqs : List WRReq) :
    (fixup_write_read_return_buffers reqs).isSome = true
      ↔ ∀ r ∈ reqs, r.res ≤ r.rbuf.length := by
  constructor
  · intro hs r hr
    by_contra hlt
    push_neg at hlt
    have hany : reqs.any (fun r => r.rbuf.length < r.res) = true := by
      rw [List.any_eq_true]
      exact ⟨r, hr, by simpa using hlt⟩
    unfold fixup_write_read_return_buffers at hs
    rw [hany] at hs
    simp at hs
  · intro hba
    unfold fixup_write_read_return_buffers
    have hany : reqs.any (fun r => r.rbuf.length < r.res) = false := by
      rw [List.any_eq_false]
      intro r hr
      simpa using Nat.not_lt.mpr (hba r hr)
    rw [hany, if_neg (by simp)]
    obtain ⟨reqs', h', _⟩ := outerLoop_some reqs hba
      ((List.range reqs.length).reverse) reqs
      (fun i hi => List.mem_range.mp (List.mem_reverse.mp hi)) (sameShape_refl reqs)
    rw [h']
    rfl

/-! ### Notification frames (notif.rs) -/

/-- The per-sample validation walk of `Notification::new` (notif.rs lines
95-103): read handle and length, check the length fits, skip it. -/
def validateSamples : ℕ → List ℕ → Option (List ℕ)
  | 0, ptr => some ptr
  | m + 1, ptr =>
    match readU32 ptr with
    | none => none
    | some (_, p1) =>
      match readU32 p1 with
      | none => none
      | some (len, p2) =>
        if len ≤ p2.length then validateSamples m (p2.drop len) else none

/-- The per-stamp validation walk of `Notification::new` (notif.rs lines
91-104): read timestamp and sample count, walk the samples. -/
def validateStamps : ℕ → List ℕ → Option (List ℕ)
  | 0, ptr => some ptr
  | k + 1, ptr =>
    match readU64 ptr with
    | none => none
    | some (_, p1) =>
      match readU32 p1 with
      | none => none
      | some (ns, p2) =>
        match validateSamples ns p2 with
        | none => none
        | some p3 => validateStamps k p3

/-- `Notification::new` (notif.rs lines 82-110): require at least 46 bytes,
read the stamp count at offset 42, eagerly validate all stamps and samples,
and require exact consumption.  The buffer itself is stored unchanged, so
the model returns just the cached stamp count. -/
def notifNew (data : List ℕ) : Option ℕ :=
  if data.length < 46 then none
  else
    match readU32 (data.drop 42) with
    | none => none
    | some (nstamps, ptr) =>
      match validateStamps nstamps ptr with
      | none => none
      | some rest => if rest = [] then some nstamps else none

/-- Running the `SampleIter` iterator (notif.rs lines 162-193) to the end,
collecting the `(handle, data)` of every yielded `Sample` (the timestamp
conversion does not affect the walk).  State is `(stamps_left, samples_left,
data)`; `none` models a panic of the `expect`-ed reads or of `split_at`. -/
def iterSamples : ℕ → ℕ → List ℕ → Option (List (ℕ × List ℕ))
  | stamps, m + 1, ptr =>
    match readU32 ptr with
    | none => none
    | some (h, p1) =>
      match readU32 p1 with
      | none => none
      | some (len, p2) =>
        if len ≤ p2.length then
          match iterSamples stamps m (p2.drop len) with
          | none => none
          | some rest => some ((h, p2.take len) :: rest)
        else none
  | stamps + 1, 0, ptr =>
    match readU64 ptr with
    | none => none
    | some (_, p1) =>
      match readU32 p1 with
      | none => none
      | some (ns, p2) => iterSamples stamps ns p2
  | 0, 0, _ => some []
termination_by s m _ => (s, m)

/-- The advertised content of `m` samples: the handles and the
length-prefixed data slices, as laid out in the frame. -/
def parseSamples : ℕ → List ℕ → Option (List (ℕ × List ℕ) × List ℕ)
  | 0, ptr => some ([], ptr)
  | m + 1, ptr =>
    match readU32 ptr with
    | none => none
    | some (h, p1) =>
      match readU32 p1 with
      | none => none
      | some (len, p2) =>
        if len ≤ p2.length then
          match parseSamples m (p2.drop len) with
          | none => none
          | some (rest, p3) => some ((h, p2.take len) :: rest, p3)
        else none

/-- The advertised content of `k` stamps: for each stamp the list of its
samples, of length equal to the stamp's `nsamples` field. -/
def parseStamps : ℕ → List ℕ → Option (List (List (ℕ × List ℕ)) × List ℕ)
  | 0, ptr => some ([], ptr)
  | k + 1, ptr =>
    match readU64 ptr with
    | none => none
    | some (_, p1) =>
      match readU32 p1 with
      | none => none
      | some (ns, p2) =>
        match parseSamples ns p2 with
        | none => none
        | some (samps, p3) =>
          match parseStamps k p3 with
          | none => none
          | some (rest, p4) => some (samps :: rest, p4)

theorem readU32_rest (l : List ℕ) (v : ℕ) (r : List ℕ)
    (h : readU32 l = some (v, r)) : r = l.drop 4 := by
  match l with
  | [] | [_] | [_, _] | [_, _, _] => simp [readU32] at h
  | a :: b :: c :: d :: rest =>
    simp only [readU32, Option.some.injEq, Prod.mk.injEq] at h
    simp [← h.2]

/-- Sample validation success gives the advertised sample list, whose length
is the `nsamples` field. -/
theorem validateSamples_parse (m : ℕ) :
    ∀ (ptr rest : List ℕ), validateSamples m ptr = some rest →
      ∃ s, parseSamples m ptr = some (s, rest) ∧ s.length = m := by
  induction m with
  | zero =>
    intro ptr rest h
    simp only [validateSamples, Option.some.injEq] at h
    exact ⟨[], by rw [h]; rfl, rfl⟩
  | succ m ihm =>
    intro ptr rest h
    simp only [validateSamples] at h
    match h1 : readU32 ptr with
    | none => rw [h1] at h; exact absurd h (by simp)
    | some (hd, p1) =>
      rw [h1] at h
      dsimp only at h
      match h2 : readU32 p1 with
      | none => rw [h2] at h; exact absurd h (by simp)
      | some (len, p2) =>
        rw [h2] at h
        dsimp only at h
        by_cases hlen : len ≤ p2.length
        · rw [if_pos hlen] at h
          obtain ⟨s, hs1, hs2⟩ := ihm (p2.drop len) rest h
          refine ⟨(hd, p2.take len) :: s, ?_, by simp [hs2]⟩
          simp only [parseSamples, h1, h2]
          rw [if_pos hlen, hs1]
        · rw [if_neg hlen] at h
          exact absurd h (by simp)

/-- Stamp validation success gives the advertised stamp structure. -/
theorem validateStamps_parse (k : ℕ) :
    ∀ (ptr rest : List ℕ), validateStamps k ptr = some rest →
      ∃ st, parseStamps k ptr = some (st, rest) := by
  induction k with
  | zero =>
    intro ptr rest h
    simp only [validateStamps, Option.some.injEq] at h
    exact ⟨[], by rw [h]; rfl⟩
  | succ k ihk =>
    intro ptr rest h
    simp only [validateStamps] at h
    match h1 : readU64 ptr with
    | none => rw [h1] at h; exact absurd h (by simp)
    | some (ts, p1) =>
      rw [h1] at h
      dsimp only at h
      match h2 : readU32 p1 with
      | none => rw [h2] at h; exact absurd h (by simp)
      | some (ns, p2) =>
        rw [h2] at h
        dsimp only at h
        match h3 : validateSamples ns p2 with
        | none => rw [h3] at h; exact absurd h (by simp)
        | some p3 =>
          rw [h3] at h
          dsimp only at h
          obtain ⟨s, hs1, _⟩ := validateSamples_parse ns p2 p3 h3
          obtain ⟨st, hst⟩ := ihk p3 rest h
          refine ⟨s :: st, ?_⟩
          simp only [parseStamps, h1, h2, hs1, hst]

/-- Prepending `m` parsed samples to an iterator run. -/
theorem iterSamples_prepend (m : ℕ) :
    ∀ (ptr p3 : List ℕ) (s : List (ℕ × List ℕ)),
      parseSamples m ptr = some (s, p3) →
      ∀ (stamps : ℕ) (l : List (ℕ × List ℕ)),
        iterSamples stamps 0 p3 = some l →
        iterSamples stamps m ptr = some (s ++ l) := by
  induction m with
  | zero =>
    intro ptr p3 s h stamps l hl
    simp only [parseSamples, Option.some.injEq, Prod.mk.injEq] at h
    rw [← h.2] at hl
    rw [← h.1, List.nil_append]
    exact hl
  | succ m ihm =>
    intro ptr p3 s h stamps l hl
    simp only [parseSamples] at h
    match h1 : readU32 ptr with
    | none => rw [h1] at h; exact absurd h (by simp)
    | some (hd, p1) =>
      rw [h1] at h
      dsimp only at h
      match h2 : readU32 p1 with
      | none => rw [h2] at h; exact absurd h (by simp)
      | some (len, p2) =>
        rw [h2] at h
        dsimp only at h
        by_cases hlen : len ≤ p2.length
        · rw [if_pos hlen] at h
          match h3 : parseSamples m (p2.drop len) with
          | none => rw [h3] at h; exact absurd h (by simp)
          | some (rest, p4) =>
            rw [h3] at h
            dsimp only at h
            simp only [Option.some.injEq, Prod.mk.injEq] at h
            have hrec := ihm (p2.drop len) p4 rest h3 stamps l
              (by rw [show p4 = p3 from h.2]; exact hl)
            rw [show s = (hd, p2.take len) :: rest from h.1.symm]
            simp only [iterSamples]
            rw [h1]
            dsimp only
            rw [h2]
            dsimp only
            rw [if_pos hlen, hrec]
            simp
        · rw [if_neg hlen] at h
          exact absurd h (by simp)

/-- The iterator yields exactly the flattened advertised samples. -/
theorem iterSamples_stamps (k : ℕ) :
    ∀ (ptr rest : List ℕ) (st : List (List (ℕ × List ℕ))),
      parseStamps k ptr = some (st, rest) →
      iterSamples k 0 ptr = some st.flatten := by
  induction k with
  | zero =>
    intro ptr rest st h
    simp only [parseStamps, Option.some.injEq, Prod.mk.injEq] at h
    rw [← h.1]
    simp [iterSamples]
  | succ k ihk =>
    intro ptr rest st h
    simp only [parseStamps] at h
    match h1 : readU64 ptr with
    | none => rw [h1] at h; exact absurd h (by simp)
    | some (ts, p1) =>
      rw [h1] at h
      dsimp only at h
      match h2 : readU32 p1 with
      | none => rw [h2] at h; exact absurd h (by simp)
      | some (ns, p2) =>
        rw [h2] at h
        dsimp only at h
        match h3 : parseSamples ns p2 with
        | none => rw [h3] at h; exact absurd h (by simp)
        | some (samps, p3) =>
          rw [h3] at h
          dsimp only at h
          match h4 : parseStamps k p3 with
          | none => rw [h4] at h; exact absurd h (by simp)
          | some (strest, p4) =>
            rw [h4] at h
            dsimp only at h
            simp only [Option.some.injEq, Prod.mk.injEq] at h
            have hrec := ihk p3 p4 strest h4
            have hpre := iterSamples_prepend ns p2 p3 samps h3 k strest.flatten hrec
            rw [show st = samps :: strest from h.1.symm]
            simp only [iterSamples]
            rw [h1]
            dsimp only
            rw [h2]
            dsimp only
            rw [hpre]
            simp

/-- C5: for every byte vector accepted by `Notification::new`, running the
samples iterator terminates without panicking and yields exactly the
advertised samples of all stamps — the flattening of the parsed per-stamp
sample lists, hence as many samples as the sum of the `nsamples` fields,
each carrying the advertised handle and data slice. -/
theorem C5_samples_iteration (data : List ℕ) (nstamps : ℕ)
    (h : notifNew data = some nstamps) :
    ∃ st, parseStamps nstamps (data.drop 46) = some (st, [])
      ∧ iterSamples nstamps 0 (data.drop 46) = some st.flatten
      ∧ st.flatten.length = (st.map List.length).sum := by
  unfold notifNew at h
  by_cases h46 : data.length < 46
  · rw [if_pos h46] at h
    exact absurd h (by simp)
  · rw [if_neg h46] at h
    match h1 : readU32 (data.drop 42) with
    | none => rw [h1] at h; exact absurd h (by simp)
    | some (ns, ptr) =>
      rw [h1] at h
      dsimp only at h
      have hptr : ptr = data.drop 46 := by
        rw [readU32_rest (data.drop 42) ns ptr h1, List.drop_drop]
      match h2 : validateStamps ns ptr with
      | none => rw [h2] at h; exact absurd h (by simp)
      | some rest =>
        rw [h2] at h
        dsimp only at h
        by_cases hrest : rest = []
        · rw [if_pos hrest] at h
          have hns : ns = nstamps := by simpa using h
          subst hns
          subst hrest
          rw [hptr] at h2
          obtain ⟨st, hst⟩ := validateStamps_parse ns (data.drop 46) [] h2
          exact ⟨st, hst, iterSamples_stamps ns (data.drop 46) [] st hst,
            List.length_flatten st⟩
        · rw [if_neg hrest] at h
          exact absurd h (by simp)

/-- The concrete notification frame of the spec scenario: one stamp with two
samples, handles 42 and 43, payloads `[0xAA, 0xBB]` and `[0xCC]`. -/
def c5data : List ℕ :=
  List.replicate 42 0 ++ [1, 0, 0, 0]
    ++ [0, 0, 0, 0, 0, 0, 0, 0] ++ [2, 0, 0, 0]
    ++ [42, 0, 0, 0, 2, 0, 0, 0, 170, 187]
    ++ [43, 0, 0, 0, 1, 0, 0, 0, 204]

/-- C5 witness: the theorem applied to the concrete frame `c5data`. -/
theorem C5_witness :
    ∃ st, parseStamps 1 (c5data.drop 46) = some (st, [])
      ∧ iterSamples 1 0 (c5data.drop 46) = some st.flatten
      ∧ st.flatten.length = (st.map List.length).sum :=
  C5_samples_iteration c5data 1 (by decide)

/-! ### Tracked notification handles (client.rs `Device::add_notification`,
`Device::delete_notification`) -/

/-- `Device::add_notification` (client.rs lines 953-993) as its effect on
the client's `notif_handles` set.  `commResult` is the outcome of the
underlying `communicate` call: `none` when it fails (the `?` returns early),
`some h` when it succeeds with the server's handle bytes decoding to `h`.
Only on success is `(addr, handle)` inserted and the handle returned. -/
def addNotification (s : Finset (AmsAddr × ℕ)) (addr : AmsAddr)
    (commResult : Option ℕ) : Finset (AmsAddr × ℕ) × Option ℕ :=
  match commResult with
  | none => (s, none)
  | some h => (insert (addr, h) s, some h)

/-- `Device::delete_notification` (client.rs lines 1048-1061) as its effect
on the `notif_handles` set: on `communicate` success the pair is removed and
`Ok` returned, otherwise the `?` returns early leaving the set unchanged. -/
def deleteNotification (s : Finset (AmsAddr × ℕ)) (addr : AmsAddr)
    (handle : ℕ) (commOk : Bool) : Finset (AmsAddr × ℕ) × Bool :=
  if commOk then (s.erase (addr, handle), true) else (s, false)

/-- C8: a successful `add_notification` leaves `(target, handle)` in the
tracked set; a failed one leaves the set unchanged (no insertion); a
successful `delete_notification` leaves the set without `(target, handle)`. -/
theorem C8_notif_handle_tracking (s : Finset (AmsAddr × ℕ)) (addr : AmsAddr)
    (res : Option ℕ) (handle : ℕ) (delOk : Bool) :
    (∀ h, (addNotification s addr res).2 = some h →
      (addr, h) ∈ (addNotification s addr res).1)
    ∧ ((addNotification s addr res).2 = none → (addNotification s addr res).1 = s)
    ∧ ((deleteNotification s addr handle delOk).2 = true →
        (addr, handle) ∉ (deleteNotification s addr handle delOk).1) := by
  refine ⟨?_, ?_, ?_⟩
  · intro h hsome
    cases res with
    | none => exact absurd hsome (by simp [addNotification])
    | some h0 =>
      have : h0 = h := by simpa [addNotification] using hsome
      subst this
      simp [addNotification]
  · intro hnone
    cases res with
    | none => rfl
    | some h0 => exact absurd hnone (by simp [addNotification])
  · intro hok
    cases delOk with
    | false => exact absurd hok (by simp [deleteNotification])
    | true =>
      simp only [deleteNotification, if_pos]
      exact Finset.not_mem_erase _ _

/-- C8 witness: the three conjuncts applied at concrete inputs (empty set,
successful add returning handle 5, failed add, successful delete of 7). -/
theorem C8_witness :
    ((default, 5) ∈ (addNotification ∅ default (some 5)).1)
    ∧ ((addNotification ∅ default none).1 = ∅)
    ∧ ((default, 7) ∉ (deleteNotification {(default, 7)} default 7 true).1) :=
  ⟨(C8_notif_handle_tracking ∅ default (some 5) 7 true).1 5 rfl,
   (C8_notif_handle_tracking ∅ default none 7 true).2.1 rfl,
   (C8_notif_handle_tracking {(default, 7)} default none 7 true).2.2 rfl⟩

/-! ### The UDP message codec (udp.rs) -/

/-- `BECKHOFF_UDP_MAGIC = 0x71146603`. -/
def BECKHOFF_UDP_MAGIC : ℕ := 1896998403

/-- `udp::Message`: the recorded items `(tag, start, end)` and the backing
byte vector. -/
structure UdpMessage where
  items : List (ℕ × ℕ × ℕ)
  data : List ℕ
deriving DecidableEq, Repr

/-- The 24-byte `UdpHeader` (magic, invoke_id, service, src NetID+port,
num_items), as serialized by zerocopy. -/
def udpHeader (service k : ℕ) (src : AmsAddr) : List ℕ :=
  u32le BECKHOFF_UDP_MAGIC ++ u32le 0 ++ u32le service ++ src.bytes ++ u32le k

/-- `Message::new`: header with zero items, no recorded items. -/
def msgNew (service : ℕ) (src : AmsAddr) : UdpMessage :=
  ⟨[], udpHeader service 0 src⟩

/-- `LE::write_u32(&mut self.data[20..], k)`: overwrite the `num_items`
field (bytes 20..24). -/
def setNumItems (data : List ℕ) (k : ℕ) : List ℕ :=
  data.take 20 ++ u32le k ++ data.drop 24

/-- The unchecked body of `Message::add_bytes` (udp.rs lines 117-129):
append the tag, the two length bytes and the payload, record the item
`(tag, start, end)` where `start` is the position right after the tag
(covering the length field), and refresh `num_items`. -/
def addBytesRaw (m : UdpMessage) (tag : ℕ) (payload : List ℕ) : UdpMessage :=
  ⟨m.items ++ [(tag % 65536, (m.data ++ u16le tag).length,
      (m.data ++ u16le tag ++ u16le payload.length ++ payload).length)],
   setNumItems (m.data ++ u16le tag ++ u16le payload.length ++ payload)
     (m.items.length + 1)⟩

/-- `Message::add_bytes` with its `u16`/`u32` conversion checks. -/
def addBytes (m : UdpMessage) (tag : ℕ) (payload : List ℕ) : Option UdpMessage :=
  if payload.length ≤ 65535 ∧ m.items.length + 1 ≤ 4294967295 then
    some (addBytesRaw m tag payload)
  else none

/-- `Message::add_str`: the payload is the string's bytes plus a null
terminator, with the length written as `len + 1`. -/
def addStr (m : UdpMessage) (tag : ℕ) (sBytes : List ℕ) : Option UdpMessage :=
  if sBytes.length + 1 ≤ 65535 ∧ m.items.length + 1 ≤ 4294967295 then
    some (addBytesRaw m tag (sBytes ++ [0]))
  else none

/-- `Message::add_u32`: four payload bytes, length field 4. -/
def addU32 (m : UdpMessage) (tag : ℕ) (v : ℕ) : Option UdpMessage :=
  if m.items.length + 1 ≤ 4294967295 then
    some (addBytesRaw m tag (u32le v))
  else none

/-- One call in a build sequence. -/
inductive UdpOp
  | opBytes (tag : ℕ) (payload : List ℕ)
  | opStr (tag : ℕ) (sBytes : List ℕ)
  | opU32 (tag : ℕ) (v : ℕ)
deriving DecidableEq, Repr

/-- The tag of an op. -/
def UdpOp.tag : UdpOp → ℕ
  | .opBytes t _ => t
  | .opStr t _ => t
  | .opU32 t _ => t

/-- The payload bytes an op writes after its tag and length fields. -/
def UdpOp.payload : UdpOp → List ℕ
  | .opBytes _ p => p
  | .opStr _ sB => sB ++ [0]
  | .opU32 _ v => u32le v

/-- Apply one add call. -/
def applyOp (m : UdpMessage) : UdpOp → Option UdpMessage
  | .opBytes t p => addBytes m t p
  | .opStr t sB => addStr m t sB
  | .opU32 t v => addU32 m t v

/-- A `Message::new` followed by a sequence of add calls. -/
def buildMsg (service : ℕ) (src : AmsAddr) (ops : List UdpOp) : Option UdpMessage :=
  List.foldlM applyOp (msgNew service src) ops

/-- The wire encoding of one item: tag, length, payload. -/
def encOp (op : UdpOp) : List ℕ :=
  u16le op.tag ++ u16le op.payload.length ++ op.payload

/-- The item-list loop of `Message::parse_internal` (udp.rs lines 100-109):
read tag and length pairs, record `(tag, pos, pos + len)` payload ranges
(`pos` starts at 28), and skip the payload.  A truncated tag ends the loop;
a truncated length is an error; the skip `&data_ptr[len..]` panics if `len`
overruns (both modelled as `none` except the clean end). -/
def parseItems : List ℕ → ℕ → Option (List (ℕ × ℕ × ℕ))
  | [], _ => some []
  | [_], _ => some []
  | [_, _], _ => none
  | [_, _, _], _ => none
  | a :: b :: c :: d :: rest, pos =>
    if (c % 256 + 256 * (d % 256)) ≤ rest.length then
      (parseItems (rest.drop (c % 256 + 256 * (d % 256)))
          (pos + (c % 256 + 256 * (d % 256)) + 4)).map
        (fun items => (a % 256 + 256 * (b % 256), pos,
          pos + (c % 256 + 256 * (d % 256))) :: items)
    else none
termination_by l _ => l.length
decreasing_by
  simp only [List.length_drop, List.length_cons]
  omega

/-- `Message::parse_internal` (udp.rs lines 82-114): read and check magic,
invoke ID and service, skip the source address, read the item count (only
used as a capacity hint) and parse the items. -/
def msgParse (data : List ℕ) (expService : ℕ) : Option UdpMessage :=
  match readU32 data with
  | none => none
  | some (magic, d1) =>
    match readU32 d1 with
    | none => none
    | some (invokeId, d2) =>
      match readU32 d2 with
      | none => none
      | some (svc, d3) =>
        if magic ≠ BECKHOFF_UDP_MAGIC then none
        else if invokeId ≠ 0 then none
        else if svc ≠ expService then none
        else if d3.length < 8 then none
        else
          match readU32 (d3.drop 8) with
          | none => none
          | some (_, d4) =>
            match parseItems d4 28 with
            | none => none
            | some items => some ⟨items, data⟩

/-- `Message::parse`: the expected service is the service code with the
reply flag in bit 31. -/
def msgParseR (data : List ℕ) (service : ℕ) (reply : Bool) : Option UdpMessage :=
  msgParse data
    (if reply then (service % 4294967296) ||| 2147483648 else service % 4294967296)

/-- `Message::map_tag`: find the first item with the tag and hand its byte
range to the accessor. -/
def mapTag (m : UdpMessage) (tag : ℕ) : Option (List ℕ) :=
  (m.items.find? (fun it => it.1 == tag % 65536)).map
    (fun it => (m.data.drop it.2.1).take (it.2.2 - it.2.1))

/-- `Message::get_bytes`. -/
def getBytes (m : UdpMessage) (tag : ℕ) : Option (List ℕ) := mapTag m tag

/-- A UTF-8 continuation byte. -/
def isUtf8Cont (b : ℕ) : Bool := decide (128 ≤ b ∧ b < 192)

/-- Validity of a byte sequence as UTF-8 (what `str::from_utf8` checks):
ASCII, or well-formed 2-4 byte sequences with the standard overlong and
surrogate exclusions.  Models the invariant of Rust's `str` for the bytes
passed to `add_str` and the check performed by `get_str`. -/
def validUtf8 : List ℕ → Bool
  | [] => true
  | b :: r =>
    if b < 128 then validUtf8 r
    else if 194 ≤ b ∧ b ≤ 223 then
      match r with
      | c1 :: r1 => isUtf8Cont c1 && validUtf8 r1
      | [] => false
    else if b = 224 then
      match r with
      | c1 :: c2 :: r2 =>
          decide (160 ≤ c1 ∧ c1 ≤ 191) && isUtf8Cont c2 && validUtf8 r2
      | _ => false
    else if (225 ≤ b ∧ b ≤ 236) ∨ b = 238 ∨ b = 239 then
      match r with
      | c1 :: c2 :: r2 => isUtf8Cont c1 && isUtf8Cont c2 && validUtf8 r2
      | _ => false
    else if b = 237 then
      match r with
      | c1 :: c2 :: r2 =>
          decide (128 ≤ c1 ∧ c1 ≤ 159) && isUtf8Cont c2 && validUtf8 r2
      | _ => false
    else if b = 240 then
      match r with
      | c1 :: c2 :: c3 :: r3 =>
          decide (144 ≤ c1 ∧ c1 ≤ 191) && isUtf8Cont c2 && isUtf8Cont c3
            && validUtf8 r3
      | _ => false
    else if 241 ≤ b ∧ b ≤ 243 then
      match r with
      | c1 :: c2 :: c3 :: r3 =>
          isUtf8Cont c1 && isUtf8Cont c2 && isUtf8Cont c3 && validUtf8 r3
      | _ => false
    else if b = 244 then
      match r with
      | c1 :: c2 :: c3 :: r3 =>
          decide (128 ≤ c1 ∧ c1 ≤ 143) && isUtf8Cont c2 && isUtf8Cont c3
            && validUtf8 r3
      | _ => false
    else false

/-- `Message::get_str`: drop the null terminator and decode as UTF-8.  The
`none` on an empty slice models the `b.len() - 1` underflow panic. -/
def getStr (m : UdpMessage) (tag : ℕ) : Option (List ℕ) :=
  match mapTag m tag with
  | none => none
  | some b =>
    if b = [] then none
    else if validUtf8 b.dropLast then some b.dropLast else none

/-- `Message::get_u32`: decode the slice as a little-endian u32. -/
def getU32 (m : UdpMessage) (tag : ℕ) : Option ℕ :=
  match mapTag m tag with
  | none => none
  | some b => (readU32 b).map Prod.fst

theorem readU32_u32le (v : ℕ) (rest : List ℕ) :
    readU32 (u32le v ++ rest) = some (v % 4294967296, rest) := by
  simp only [u32le, List.cons_append, List.nil_append, readU32,
    Option.some.injEq, Prod.mk.injEq]
  constructor
  · omega
  · trivial

theorem setNumItems_udpHeader (service k k' : ℕ) (src : AmsAddr) (body : List ℕ) :
    setNumItems (udpHeader service k src ++ body) k'
      = udpHeader service k' src ++ body := by
  rfl

/-- Every successful add call appends the op's encoding and records one more
item; the payload obeys the u16 length bound. -/
theorem applyOp_eq (m : UdpMessage) (op : UdpOp) (m' : UdpMessage)
    (h : applyOp m op = some m') :
    m' = addBytesRaw m op.tag op.payload ∧ op.payload.length ≤ 65535 := by
  cases op with
  | opBytes t p =>
    simp only [applyOp, addBytes] at h
    split at h
    · rename_i hc
      cases h
      exact ⟨rfl, hc.1⟩
    · exact absurd h (by simp)
  | opStr t sB =>
    simp only [applyOp, addStr] at h
    split at h
    · rename_i hc
      cases h
      refine ⟨rfl, ?_⟩
      simp only [UdpOp.payload, List.length_append, List.length_cons,
        List.length_nil]
      omega
    · exact absurd h (by simp)
  | opU32 t v =>
    simp only [applyOp, addU32] at h
    split at h
    · cases h
      exact ⟨rfl, by simp [UdpOp.payload, u32le]⟩
    · exact absurd h (by simp)

/-- Structure of a built message: the header with the final item count
followed by the concatenated encodings of all ops. -/
theorem buildMsg_invariant (service : ℕ) (src : AmsAddr) :
    ∀ (ops : List UdpOp) (msg : UdpMessage) (body : List ℕ) (m : UdpMessage),
      msg.data = udpHeader service msg.items.length src ++ body →
      List.foldlM applyOp msg ops = some m →
      m.data = udpHeader service (msg.items.length + ops.length) src
          ++ (body ++ (ops.map encOp).flatten)
        ∧ ∀ op ∈ ops, op.payload.length ≤ 65535 := by
  intro ops
  induction ops with
  | nil =>
    intro msg body m hdata h
    simp only [List.foldlM_nil] at h
    have hm : msg = m := by simpa using h
    subst hm
    refine ⟨?_, by simp⟩
    rw [hdata]
    simp only [List.length_nil, List.map_nil, List.flatten_nil,
      List.append_nil, Nat.add_zero]
  | cons op ops ih =>
    intro msg body m hdata h
    rw [List.foldlM_cons] at h
    match happ : applyOp msg op with
    | none => rw [happ] at h; exact absurd h (by simp)
    | some m1 =>
      rw [happ] at h
      simp only [Option.bind_eq_bind, Option.some_bind] at h
      obtain ⟨hm1, hbound⟩ := applyOp_eq _ _ _ happ
      have hlen1 : m1.items.length = msg.items.length + 1 := by
        rw [hm1]
        simp [addBytesRaw]
      have hdata1 : m1.data = udpHeader service m1.items.length src
          ++ (body ++ encOp op) := by
        rw [hlen1, hm1]
        show setNumItems (msg.data ++ u16le op.tag ++ u16le op.payload.length
            ++ op.payload) (msg.items.length + 1) = _
        rw [hdata]
        rw [show udpHeader service msg.items.length src ++ body ++ u16le op.tag
            ++ u16le op.payload.length ++ op.payload
          = udpHeader service msg.items.length src
            ++ (body ++ (u16le op.tag ++ u16le op.payload.length ++ op.payload))
          from by simp [List.append_assoc]]
        rw [setNumItems_udpHeader]
        rfl
      obtain ⟨hd, hb⟩ := ih m1 (body ++ encOp op) m hdata1 h
      refine ⟨?_, ?_⟩
      · rw [hd, hlen1]
        rw [show msg.items.length + 1 + ops.length
          = msg.items.length + (ops.length + 1) from by omega]
        simp [encOp, List.append_assoc]
      · intro x hx
        rcases List.mem_cons.mp hx with hx | hx
        · subst hx; exact hbound
        · exact hb x hx

/-- The items the parser records for a sequence of encoded ops starting at
payload position `pos`: masked tag, payload start, payload end. -/
def itemsFor : List UdpOp → ℕ → List (ℕ × ℕ × ℕ)
  | [], _ => []
  | op :: ops, pos =>
      (op.tag % 65536, pos, pos + op.payload.length)
        :: itemsFor ops (pos + op.payload.length + 4)

/-- Parsing the concatenated encodings of ops whose payloads obey the u16
bound recovers exactly their payload ranges. -/
theorem parseItems_enc :
    ∀ (ops : List UdpOp) (pos : ℕ),
      (∀ op ∈ ops, op.payload.length ≤ 65535) →
      parseItems (ops.map encOp).flatten pos = some (itemsFor ops pos) := by
  intro ops
  induction ops with
  | nil =>
    intro pos _
    simp [parseItems, itemsFor]
  | cons op ops ih =>
    intro pos hb
    have hple := hb op (List.mem_cons_self op ops)
    rw [List.map_cons, List.flatten_cons]
    rw [show encOp op ++ (ops.map encOp).flatten
        = op.tag % 256 :: (op.tag / 256 % 256) :: (op.payload.length % 256)
          :: (op.payload.length / 256 % 256)
          :: (op.payload ++ (ops.map encOp).flatten) from by
      simp [encOp, u16le]]
    have hdect : op.tag % 256 % 256 + 256 * (op.tag / 256 % 256 % 256)
        = op.tag % 65536 := by omega
    have hdecl : op.payload.length % 256 % 256
          + 256 * (op.payload.length / 256 % 256 % 256)
        = op.payload.length := by omega
    simp only [parseItems, hdect, hdecl]
    rw [if_pos (by simp)]
    rw [List.drop_left]
    rw [ih (pos + op.payload.length + 4)
      (fun x hx => hb x (List.mem_cons_of_mem _ hx))]
    simp [itemsFor]

/-- In a buffer whose bytes from `base` on are the concatenated encodings of
ops with pairwise distinct (masked) tags, looking up any op's tag in the
recorded items finds its item and slicing the buffer with it returns exactly
the op's payload. -/
theorem findSlice :
    ∀ (ops : List UdpOp) (base : ℕ) (data : List ℕ),
      data.drop base = (ops.map encOp).flatten →
      ops.Pairwise (fun a b => a.tag % 65536 ≠ b.tag % 65536) →
      ∀ op ∈ ops,
        ∃ i j, (itemsFor ops (base + 4)).find? (fun it => it.1 == op.tag % 65536)
            = some (op.tag % 65536, i, j)
          ∧ (data.drop i).take (j - i) = op.payload := by
  intro ops
  induction ops with
  | nil =>
    intro base data _ _ op hop
    simp at hop
  | cons op' ops ih =>
    intro base data hdata hpw op hop
    have hdrop4 : data.drop (base + 4) = op'.payload ++ (ops.map encOp).flatten := by
      rw [← List.drop_drop, hdata, List.map_cons, List.flatten_cons]
      rw [show encOp op' ++ (ops.map encOp).flatten
          = (u16le op'.tag ++ u16le op'.payload.length)
            ++ (op'.payload ++ (ops.map encOp).flatten) from by
        simp [encOp, List.append_assoc]]
      rw [List.drop_left' (by simp [u16le])]
    rcases List.mem_cons.mp hop with heq | hop'
    · subst heq
      refine ⟨base + 4, base + 4 + op.payload.length, ?_, ?_⟩
      · rw [show itemsFor (op :: ops) (base + 4)
            = (op.tag % 65536, base + 4, base + 4 + op.payload.length)
              :: itemsFor ops (base + 4 + op.payload.length + 4) from rfl]
        rw [List.find?_cons_of_pos _ (by simp)]
      · rw [show base + 4 + op.payload.length - (base + 4) = op.payload.length
          from by omega]
        rw [hdrop4, List.take_left]
    · have hne : op'.tag % 65536 ≠ op.tag % 65536 :=
        (List.pairwise_cons.mp hpw).1 op hop'
      have hdata' : data.drop (base + 4 + op'.payload.length)
          = (ops.map encOp).flatten := by
        rw [← List.drop_drop, hdrop4, List.drop_left]
      obtain ⟨i, j, hfind, hslice⟩ := ih (base + 4 + op'.payload.length) data
        hdata' (List.pairwise_cons.mp hpw).2 op hop'
      refine ⟨i, j, ?_, hslice⟩
      rw [show itemsFor (op' :: ops) (base + 4)
          = (op'.tag % 65536, base + 4, base + 4 + op'.payload.length)
            :: itemsFor ops (base + 4 + op'.payload.length + 4) from rfl]
      rw [List.find?_cons_of_neg _ (by simp [hne])]
      exact hfind

/-- Whether an op's string payload is valid UTF-8 (trivially true for the
other ops); Rust's `str` type guarantees this for every `add_str` argument. -/
def strOpValid : UdpOp → Bool
  | .opStr _ sB => validUtf8 sB
  | _ => true

instance : Inhabited UdpMessage := ⟨⟨[], []⟩⟩

theorem udpHeader_length (service k : ℕ) (src : AmsAddr) :
    (udpHeader service k src).length = 24 := by
  simp [udpHeader, u32le, u16le, AmsAddr.bytes]

/-- C7: serializing a message built by `Message::new` plus any sequence of
`add_bytes`/`add_str`/`add_u32` calls with pairwise distinct tags, then
parsing it back with the same service and matching (false) reply flag,
succeeds; `get_bytes`/`get_str`/`get_u32` on the parsed message return
exactly the payload added for each tag. -/
theorem C7_udp_roundtrip (service : ℕ) (src : AmsAddr) (ops : List UdpOp)
    (m : UdpMessage)
    (hsvc : service < 4294967296)
    (hbuild : buildMsg service src ops = some m)
    (hdist : ops.Pairwise (fun a b => a.tag % 65536 ≠ b.tag % 65536))
    (hstr : ∀ op ∈ ops, strOpValid op = true) :
    ∃ p, msgParseR m.data service false = some p
      ∧ ∀ op ∈ ops,
          (∀ t pl, op = UdpOp.opBytes t pl → getBytes p t = some pl)
          ∧ (∀ t sB, op = UdpOp.opStr t sB → getStr p t = some sB)
          ∧ (∀ t v, op = UdpOp.opU32 t v → getU32 p t = some (v % 4294967296)) := by
  obtain ⟨hdataM, hbounds⟩ := buildMsg_invariant service src ops
    (msgNew service src) [] m (by simp [msgNew]) hbuild
  simp only [msgNew, List.length_nil, Nat.zero_add, List.nil_append] at hdataM
  have hshape : m.data
      = u32le BECKHOFF_UDP_MAGIC ++ (u32le 0 ++ (u32le service
        ++ (src.bytes ++ (u32le ops.length ++ (ops.map encOp).flatten)))) := by
    rw [hdataM]
    simp [udpHeader, List.append_assoc]
  have hpi : parseItems (ops.map encOp).flatten 28 = some (itemsFor ops 28) :=
    parseItems_enc ops 28 hbounds
  have hparse0 : msgParse (u32le BECKHOFF_UDP_MAGIC ++ (u32le 0 ++ (u32le service
        ++ (src.bytes ++ (u32le ops.length ++ (ops.map encOp).flatten)))))
        (service % 4294967296)
      = some ⟨itemsFor ops 28,
          u32le BECKHOFF_UDP_MAGIC ++ (u32le 0 ++ (u32le service
            ++ (src.bytes ++ (u32le ops.length ++ (ops.map encOp).flatten))))⟩ := by
    unfold msgParse
    rw [readU32_u32le]
    dsimp only
    rw [readU32_u32le]
    dsimp only
    rw [readU32_u32le]
    dsimp only
    rw [if_neg (by decide), if_neg (by decide), if_neg (by simp),
      if_neg (by simp [AmsAddr.bytes, u16le])]
    rw [List.drop_left' (by simp [AmsAddr.bytes, u16le] :
      (src.bytes).length = 8)]
    rw [readU32_u32le]
    dsimp only
    rw [hpi]
  have hparse : msgParseR m.data service false
      = some ⟨itemsFor ops 28, m.data⟩ := by
    unfold msgParseR
    rw [if_neg (by simp), Nat.mod_eq_of_lt hsvc,
      show service = service % 4294967296 from (Nat.mod_eq_of_lt hsvc).symm]
    rw [hshape]
    exact hparse0
  refine ⟨⟨itemsFor ops 28, m.data⟩, hparse, ?_⟩
  intro op hop
  have hdrop24 : m.data.drop 24 = (ops.map encOp).flatten := by
    rw [hdataM, List.drop_left' (udpHeader_length service ops.length src)]
  obtain ⟨i, j, hfind, hslice⟩ := findSlice ops 24 m.data hdrop24 hdist op hop
  rw [show (24 : ℕ) + 4 = 28 from rfl] at hfind
  refine ⟨?_, ?_, ?_⟩
  · intro t pl hopeq
    subst hopeq
    simp only [UdpOp.tag] at hfind
    simp only [UdpOp.payload] at hslice
    unfold getBytes mapTag
    rw [hfind]
    simp only [Option.map_some']
    rw [hslice]
  · intro t sB hopeq
    subst hopeq
    simp only [UdpOp.tag] at hfind
    simp only [UdpOp.payload] at hslice
    have hvu : validUtf8 sB = true := by
      have := hstr _ hop
      simpa [strOpValid] using this
    unfold getStr mapTag
    rw [hfind]
    simp only [Option.map_some']
    rw [hslice]
    rw [if_neg (by simp)]
    have hdl : (sB ++ [0] : List ℕ).dropLast = sB := by simp
    rw [hdl, if_pos hvu]
  · intro t v hopeq
    subst hopeq
    simp only [UdpOp.tag] at hfind
    simp only [UdpOp.payload] at hslice
    unfold getU32 mapTag
    rw [hfind]
    simp only [Option.map_some']
    rw [hslice]
    rw [show readU32 (u32le v) = some (v % 4294967296, []) from by
      simpa using readU32_u32le v []]
    rfl

/-- The concrete build sequence of the round-trip witness: a NetID-style
bytes tag, a string tag (ASCII `hi`) and a u32 tag. -/
def c7ops : List UdpOp :=
  [UdpOp.opBytes 7 [1, 2], UdpOp.opStr 5 [104, 105], UdpOp.opU32 1 3]

/-- C7 witness: the round-trip theorem applied to a concrete build with
service `AddRoute` (6) from the all-zero source address. -/
theorem C7_witness :
    ∃ p, msgParseR ((buildMsg 6 default c7ops).getD default).data 6 false = some p
      ∧ ∀ op ∈ c7ops,
          (∀ t pl, op = UdpOp.opBytes t pl → getBytes p t = some pl)
          ∧ (∀ t sB, op = UdpOp.opStr t sB → getStr p t = some sB)
          ∧ (∀ t v, op = UdpOp.opU32 t v → getU32 p t = some (v % 4294967296)) :=
  C7_udp_roundtrip 6 default c7ops ((buildMsg 6 default c7ops).getD default)
    (by decide) (by decide) (by decide) (by decide)

end AdsSpec
